import Mathlib

/-!
Verification development for the JSONL receipts/errors log store
(`src/lib/storage/receipts-logger.ts`).

The store owns two channels (receipts, errors), each backed by one
newline-delimited text file.  We embed the file contents as `List Char`,
the platform string operations (`trim`, `split('\n')`, `Array.slice`)
as faithful list functions, and `JSON.stringify`/`JSON.parse` as an
executable encoder/recursive-descent parser over an inductive `Json`
type (JS numbers are modelled as integers; floating point is out of
scope).  Each store operation is a pure function from the file-system
state, with a `fault` flag standing for the I/O exceptions the source
catches, returning the new state, the parsed records, and the
diagnostics written to `console.error`.
-/

set_option maxHeartbeats 1000000
set_option maxRecDepth 100000

abbrev Chars := List Char

/-- Whitespace as relevant to `String.prototype.trim` (common subset). -/
def isWs (c : Char) : Bool :=
  c = ' ' || c = '\n' || c = '\t' || c = '\r'

/-- `content.split('\n')` : JS `String.prototype.split` with a one-char
separator; the empty string splits to `[""]`. -/
def splitNl : Chars → List Chars
  | [] => [[]]
  | c :: cs =>
    if c = '\n' then [] :: splitNl cs
    else
      match splitNl cs with
      | [] => [[c]]
      | l :: ls => (c :: l) :: ls

/-- Drop leading whitespace (left half of `trim`). -/
def ltrim (cs : Chars) : Chars := cs.dropWhile isWs

/-- Drop trailing whitespace (right half of `trim`). -/
def rtrim (cs : Chars) : Chars := (cs.reverse.dropWhile isWs).reverse

/-- JS `String.prototype.trim`. -/
def jsTrim (cs : Chars) : Chars := rtrim (ltrim cs)

/-- `content.trim().split('\n').filter(line => line.length > 0)` —
the line decomposition shared by all three read operations. -/
def fileLines (content : Chars) : List Chars :=
  (splitNl (jsTrim content)).filter (fun l => decide (0 < l.length))

/-- `Array.prototype.slice` with one argument, JS semantics: a negative
start counts from the end (clamped at 0), a non-negative start is
clamped at the length. -/
def jsSlice (start : Int) (l : List α) : List α :=
  let len : Int := l.length
  let k : Int := if start < 0 then max (len + start) 0 else min start len
  l.drop k.toNat

/-- The file content produced by appending each line plus `'\n'` in order. -/
def buildC (ls : List Chars) : Chars :=
  (ls.map (fun l => l ++ ['\n'])).flatten

/-- A raw line that survives the JSONL framing: nonempty, free of `'\n'`,
and not starting or ending in whitespace (so the global `trim` cannot
eat into it). -/
def lineSafe (l : Chars) : Bool :=
  !l.isEmpty && !decide ('\n' ∈ l) &&
    l.head?.all (fun c => !isWs c) && l.getLast?.all (fun c => !isWs c)

/-- JS values as produced by `JSON.parse` / consumed by `JSON.stringify`
(numbers restricted to integers). -/
inductive Json where
  | null : Json
  | bool (b : Bool) : Json
  | num (i : Int) : Json
  | str (s : String) : Json
  | arr (xs : List Json) : Json
  | obj (kvs : List (String × Json)) : Json

/-- Hexadecimal digit character (lowercase), as used by `JSON.stringify`
for control-character escapes. -/
def hexDigitChar (n : Nat) : Char :=
  if n < 10 then Char.ofNat (48 + n) else Char.ofNat (87 + n)

/-- `JSON.stringify` escaping of one character inside a string literal. -/
def escChar (c : Char) : Chars :=
  if c = '"' then ['\\', '"']
  else if c = '\\' then ['\\', '\\']
  else if c = '\n' then ['\\', 'n']
  else if c = '\t' then ['\\', 't']
  else if c = '\r' then ['\\', 'r']
  else if c = '\u0008' then ['\\', 'b']
  else if c = '\u000C' then ['\\', 'f']
  else if c.toNat < 32 then
    ['\\', 'u', '0', '0', hexDigitChar (c.toNat / 16), hexDigitChar (c.toNat % 16)]
  else [c]

/-- Escaped body of a JSON string literal. -/
def escStr (cs : Chars) : Chars := (cs.map escChar).flatten

/-- A quoted JSON string literal. -/
def encString (cs : Chars) : Chars := '"' :: escStr cs ++ ['"']

/-- Decimal digit character. -/
def digitChar (n : Nat) : Char := Char.ofNat (48 + n)

/-- Little-endian decimal digits of `n`; the first argument is fuel
(`n` itself suffices, since `n / 10 < n`). -/
def natDigitsAux : Nat → Nat → List Nat
  | 0, _ => []
  | fuel + 1, n => if n = 0 then [] else n % 10 :: natDigitsAux fuel (n / 10)

/-- Big-endian decimal digits of `n` (`[0]` for zero). -/
def bigDigits (n : Nat) : List Nat :=
  if n = 0 then [0] else (natDigitsAux n n).reverse

/-- Decimal notation of a natural number. -/
def natChars (n : Nat) : Chars := (bigDigits n).map digitChar

/-- Decimal notation of an integer, as `JSON.stringify` prints it. -/
def intChars (i : Int) : Chars :=
  if i < 0 then '-' :: natChars i.natAbs else natChars i.toNat

mutual

/-- `JSON.stringify` (no indentation argument, as in the source). -/
def encVal : Json → Chars
  | .null => ['n', 'u', 'l', 'l']
  | .bool b => if b then ['t', 'r', 'u', 'e'] else ['f', 'a', 'l', 's', 'e']
  | .num i => intChars i
  | .str s => encString s.data
  | .arr xs => '[' :: encItems xs ++ [']']
  | .obj kvs => '{' :: encMembers kvs ++ ['}']

/-- Comma-separated array elements. -/
def encItems : List Json → Chars
  | [] => []
  | [x] => encVal x
  | x :: y :: xs => encVal x ++ ',' :: encItems (y :: xs)

/-- Comma-separated object members. -/
def encMembers : List (String × Json) → Chars
  | [] => []
  | [(k, v)] => encString k.data ++ ':' :: encVal v
  | (k, v) :: m :: ms => encString k.data ++ ':' :: encVal v ++ ',' :: encMembers (m :: ms)

end

/-- Value of a hexadecimal digit character, either case. -/
def hexVal? (c : Char) : Option Nat :=
  if 48 ≤ c.toNat ∧ c.toNat ≤ 57 then some (c.toNat - 48)
  else if 97 ≤ c.toNat ∧ c.toNat ≤ 102 then some (c.toNat - 87)
  else if 65 ≤ c.toNat ∧ c.toNat ≤ 70 then some (c.toNat - 55)
  else none

/-- Value of a decimal digit character. -/
def digVal? (c : Char) : Option Nat :=
  if 48 ≤ c.toNat ∧ c.toNat ≤ 57 then some (c.toNat - 48) else none

/-- Longest leading run of decimal digits, as digit values. -/
def takeDigits : Chars → List Nat × Chars
  | [] => ([], [])
  | c :: cs =>
    match digVal? c with
    | some d =>
      match takeDigits cs with
      | (ds, r) => (d :: ds, r)
    | none => ([], c :: cs)

/-- Value of a big-endian digit list. -/
def digsToNat (ds : List Nat) : Nat := ds.foldl (fun a d => 10 * a + d) 0

/-- JSON short escape sequences. -/
def escDecode (e : Char) : Option Char :=
  if e = '"' then some '"'
  else if e = '\\' then some '\\'
  else if e = '/' then some '/'
  else if e = 'n' then some '\n'
  else if e = 't' then some '\t'
  else if e = 'r' then some '\r'
  else if e = 'b' then some '\u0008'
  else if e = 'f' then some '\u000C'
  else none

/-- Decode the four hex digits of a `\uXXXX` escape (non-recursive). -/
def hex4 : Chars → Option (Char × Chars)
  | a :: b :: c2 :: d :: cs3 =>
    match hexVal? a, hexVal? b, hexVal? c2, hexVal? d with
    | some x, some y, some z, some w =>
      some (Char.ofNat (((x * 16 + y) * 16 + z) * 16 + w), cs3)
    | _, _, _, _ => none
  | _ => none

/-- Decode one escape sequence after a backslash (non-recursive):
the decoded character and the remaining input. -/
def escStep : Chars → Option (Char × Chars)
  | [] => none
  | e :: cs =>
    if e = 'u' then hex4 cs
    else
      match escDecode e with
      | some c2 => some (c2, cs)
      | none => none

/-- Parse the body of a JSON string literal after the opening quote,
returning the decoded characters and the input after the closing quote.
Fueled; one unit of fuel consumes at least one character, so any fuel
above the input length is enough. -/
def parseStrBody : Nat → Chars → Option (Chars × Chars)
  | 0, _ => none
  | _ + 1, [] => none
  | f + 1, c :: cs =>
    if c = '"' then some ([], cs)
    else if c = '\\' then
      match escStep cs with
      | some (c2, cs3) =>
        match parseStrBody f cs3 with
        | some (s, r) => some (c2 :: s, r)
        | none => none
      | none => none
    else
      match parseStrBody f cs with
      | some (s, r) => some (c :: s, r)
      | none => none

mutual

/-- Recursive-descent JSON value parser (fueled); accepts exactly the
grammar `encVal` emits and returns the unconsumed suffix. -/
def parseVal : Nat → Chars → Option (Json × Chars)
  | 0, _ => none
  | _ + 1, [] => none
  | fuel + 1, c :: cs =>
    if c = 'n' then
      match cs with
      | 'u' :: 'l' :: 'l' :: r => some (Json.null, r)
      | _ => none
    else if c = 't' then
      match cs with
      | 'r' :: 'u' :: 'e' :: r => some (Json.bool true, r)
      | _ => none
    else if c = 'f' then
      match cs with
      | 'a' :: 'l' :: 's' :: 'e' :: r => some (Json.bool false, r)
      | _ => none
    else if c = '"' then
      match parseStrBody (cs.length + 1) cs with
      | some (s, r) => some (Json.str ⟨s⟩, r)
      | none => none
    else if c = '-' then
      match takeDigits cs with
      | ([], _) => none
      | (ds, r) => some (Json.num (-(digsToNat ds : Int)), r)
    else if (digVal? c).isSome then
      match takeDigits (c :: cs) with
      | (ds, r) => some (Json.num (digsToNat ds : Int), r)
    else if c = '[' then
      match cs with
      | ']' :: r => some (Json.arr [], r)
      | _ =>
        match parseItems fuel cs with
        | some (xs, r) => some (Json.arr xs, r)
        | none => none
    else if c = '{' then
      match cs with
      | '}' :: r => some (Json.obj [], r)
      | _ =>
        match parseMembers fuel cs with
        | some (ms, r) => some (Json.obj ms, r)
        | none => none
    else none

/-- Parse one or more comma-separated array elements up to `']'`. -/
def parseItems : Nat → Chars → Option (List Json × Chars)
  | 0, _ => none
  | fuel + 1, cs =>
    match parseVal fuel cs with
    | none => none
    | some (x, r) =>
      match r with
      | ',' :: r2 =>
        match parseItems fuel r2 with
        | some (xs, r3) => some (x :: xs, r3)
        | none => none
      | ']' :: r2 => some ([x], r2)
      | _ => none

/-- Parse one or more comma-separated object members up to `'}'`. -/
def parseMembers : Nat → Chars → Option (List (String × Json) × Chars)
  | 0, _ => none
  | fuel + 1, cs =>
    match cs with
    | '"' :: cs1 =>
      match parseStrBody (cs1.length + 1) cs1 with
      | none => none
      | some (k, r1) =>
        match r1 with
        | ':' :: r2 =>
          match parseVal fuel r2 with
          | none => none
          | some (v, r3) =>
            match r3 with
            | ',' :: r4 =>
              match parseMembers fuel r4 with
              | some (ms, r5) => some ((⟨k⟩, v) :: ms, r5)
              | none => none
            | '}' :: r4 => some ([(⟨k⟩, v)], r4)
            | _ => none
        | _ => none
    | _ => none

end

/-- `JSON.parse` on one raw line: the whole input must be consumed.
(The fuel `length + 1` is sufficient for every input the encoder can
produce; see `parseVal_encVal` and `fuelJ_le_length`.) -/
def Json.parse (cs : Chars) : Option Json :=
  match parseVal (cs.length + 1) cs with
  | some (j, []) => some j
  | _ => none

/-- The `Receipt` interface: `ts`, `address`, `addressIndex?`,
`challenge_id`, `nonce`, `hash`, `crypto_receipt?`, `isDevFee?`.
Optional (`?`) fields are `Option`; an absent field is omitted by
`JSON.stringify`. -/
structure Receipt where
  ts : String
  address : String
  addressIndex : Option Int
  challenge_id : String
  nonce : String
  hash : String
  crypto_receipt : Option Json
  isDevFee : Option Bool

/-- The `ErrorLog` interface: `ts`, `address`, `addressIndex?`,
`challenge_id`, `nonce`, `hash`, `error`, `response?`. -/
structure ErrorLog where
  ts : String
  address : String
  addressIndex : Option Int
  challenge_id : String
  nonce : String
  hash : String
  error : String
  response : Option Json

/-- One optional member of a serialized object: omitted when the field
is `undefined`, as `JSON.stringify` does. -/
def optField (k : String) : Option Json → List (String × Json)
  | none => []
  | some j => [(k, j)]

/-- The JS object a `Receipt` value denotes, members in the interface's
field order (the order `JSON.stringify` sees). -/
def receiptJson (r : Receipt) : Json :=
  Json.obj
    ([(("ts" : String), Json.str r.ts), (("address" : String), Json.str r.address)]
      ++ optField ("addressIndex") (r.addressIndex.map Json.num)
      ++ [(("challenge_id" : String), Json.str r.challenge_id),
          (("nonce" : String), Json.str r.nonce),
          (("hash" : String), Json.str r.hash)]
      ++ optField ("crypto_receipt") r.crypto_receipt
      ++ optField ("isDevFee") (r.isDevFee.map Json.bool))

/-- The JS object an `ErrorLog` value denotes. -/
def errorJson (e : ErrorLog) : Json :=
  Json.obj
    ([(("ts" : String), Json.str e.ts), (("address" : String), Json.str e.address)]
      ++ optField ("addressIndex") (e.addressIndex.map Json.num)
      ++ [(("challenge_id" : String), Json.str e.challenge_id),
          (("nonce" : String), Json.str e.nonce),
          (("hash" : String), Json.str e.hash),
          (("error" : String), Json.str e.error)]
      ++ optField ("response") e.response)

/-- The two backing files (`receipts.jsonl`, `errors.jsonl`);
`none` = the file does not exist. -/
structure FsState where
  receipts : Option Chars
  errors : Option Chars

/-- One `console.error` diagnostic, by call site; the parse-failure
diagnostics carry the offending raw line, as in the source. -/
inductive Diag where
  | receiptWriteFail : Diag
  | errorWriteFail : Diag
  | receiptReadFail : Diag
  | recentReadFail : Diag
  | errorReadFail : Diag
  | receiptParseFail (line : Chars) : Diag
  | errorParseFail (line : Chars) : Diag

/-- `logReceipt`: append `JSON.stringify(receipt) + '\n'` to the
receipts file (creating it if absent).  `fault = true` models
`fs.appendFileSync` throwing: the exception is caught, a diagnostic is
emitted, and the call still returns (the function is total). -/
def logReceipt (fault : Bool) (r : Receipt) (s : FsState) : FsState × List Diag :=
  if fault then (s, [Diag.receiptWriteFail])
  else
    ({ s with receipts := some (s.receipts.getD [] ++ (encVal (receiptJson r) ++ ['\n'])) }, [])

/-- `logError`: symmetric to `logReceipt`, targeting the errors file. -/
def logError (fault : Bool) (e : ErrorLog) (s : FsState) : FsState × List Diag :=
  if fault then (s, [Diag.errorWriteFail])
  else
    ({ s with errors := some (s.errors.getD [] ++ (encVal (errorJson e) ++ ['\n'])) }, [])

/-- `lines.map(JSON.parse-or-null).filter(x => x !== null)`: the
per-line parsing pipeline shared by the three read operations (the
source performs no shape validation, so the result is a list of JS
values). -/
def parseLinesOut (ls : List Chars) : List Json :=
  (ls.map (fun l => Json.parse l)).filterMap id

/-- The diagnostics the pipeline emits: one per line that fails to
parse, in line order, carrying the raw line. -/
def parseDiags (mk : Chars → Diag) (ls : List Chars) : List Diag :=
  ls.filterMap (fun l => if (Json.parse l).isSome then none else some (mk l))

/-- `readReceipts`: `[]` if the file does not exist; on a read fault
(`fs.readFileSync` throwing) emit a diagnostic and return `[]`;
otherwise split into non-empty lines and parse each independently.
The input state is returned unchanged (the operation performs no
writes). -/
def readReceipts (fault : Bool) (s : FsState) : FsState × List Json × List Diag :=
  match s.receipts with
  | none => (s, [], [])
  | some content =>
    if fault then (s, [], [Diag.receiptReadFail])
    else
      (s, parseLinesOut (fileLines content),
        parseDiags Diag.receiptParseFail (fileLines content))

/-- `getRecentReceipts(count)`: as `readReceipts`, but first takes
`lines.slice(-count)` of the raw lines, then parses. -/
def getRecentReceipts (fault : Bool) (count : Int) (s : FsState) :
    FsState × List Json × List Diag :=
  match s.receipts with
  | none => (s, [], [])
  | some content =>
    if fault then (s, [], [Diag.recentReadFail])
    else
      (s, parseLinesOut (jsSlice (-count) (fileLines content)),
        parseDiags Diag.receiptParseFail (jsSlice (-count) (fileLines content)))

/-- `readErrors`: identical contract to `readReceipts`, targeting the
errors file. -/
def readErrors (fault : Bool) (s : FsState) : FsState × List Json × List Diag :=
  match s.errors with
  | none => (s, [], [])
  | some content =>
    if fault then (s, [], [Diag.errorReadFail])
    else
      (s, parseLinesOut (fileLines content),
        parseDiags Diag.errorParseFail (fileLines content))

/-- Fault-free appends of a batch of receipts, oldest first. -/
def appendAll (rs : List Receipt) (s : FsState) : FsState :=
  rs.foldl (fun s r => (logReceipt false r s).1) s

/-- One append call, on either channel, with its fault flag: the
alphabet of interleavings. -/
inductive Act where
  | rcpt (fault : Bool) (r : Receipt) : Act
  | err (fault : Bool) (e : ErrorLog) : Act

/-- Apply one append call to the state. -/
def applyAct (s : FsState) : Act → FsState
  | .rcpt b r => (logReceipt b r s).1
  | .err b e => (logError b e s).1

/-- Run an arbitrary interleaving of append calls. -/
def exec (acts : List Act) (s : FsState) : FsState := acts.foldl applyAct s

/-- Does this action target the receipts channel? -/
def isRcpt : Act → Bool
  | .rcpt _ _ => true
  | .err _ _ => false

/-! ## Line framing: `trim` / `split('\n')` / `filter` recover the
appended lines. -/

theorem splitNl_ne_nil (cs : Chars) : splitNl cs ≠ [] := by
  induction cs with
  | nil => simp [splitNl]
  | cons c cs ih =>
    simp only [splitNl]
    split
    · simp
    · cases h : splitNl cs with
      | nil => simp
      | cons l ls => simp

theorem splitNl_no_nl (l : Chars) (h : '\n' ∉ l) : splitNl l = [l] := by
  induction l with
  | nil => simp [splitNl]
  | cons c cs ih =>
    have hc : c ≠ '\n' := fun e => h (e ▸ List.mem_cons_self c cs)
    have hcs : '\n' ∉ cs := fun m => h (List.mem_cons_of_mem c m)
    simp [splitNl, hc, ih hcs]

theorem splitNl_append (l r : Chars) (h : '\n' ∉ l) :
    splitNl (l ++ '\n' :: r) = l :: splitNl r := by
  induction l with
  | nil => simp [splitNl]
  | cons c cs ih =>
    have hc : c ≠ '\n' := fun e => h (e ▸ List.mem_cons_self c cs)
    have hcs : '\n' ∉ cs := fun m => h (List.mem_cons_of_mem c m)
    simp [splitNl, hc, ih hcs]

theorem ltrim_cons_of_not_ws (c : Char) (cs : Chars) (h : isWs c = false) :
    ltrim (c :: cs) = c :: cs := by
  simp [ltrim, List.dropWhile_cons, h]

theorem rtrim_append_ws (xs : Chars) (c : Char) (h : isWs c = true) :
    rtrim (xs ++ [c]) = rtrim xs := by
  simp [rtrim, List.dropWhile_cons, h]

theorem rtrim_eq_nil_iff (cs : Chars) : rtrim cs = [] ↔ ∀ c ∈ cs, isWs c = true := by
  constructor
  · intro h c hc
    have h1 : cs.reverse.dropWhile isWs = [] := by
      have := congrArg List.reverse h
      simpa [rtrim] using this
    exact List.dropWhile_eq_nil_iff.mp h1 c (List.mem_reverse.mpr hc)
  · intro h
    have : cs.reverse.dropWhile isWs = [] :=
      List.dropWhile_eq_nil_iff.mpr (fun c hc => h c (List.mem_reverse.mp hc))
    simp [rtrim, this]

theorem rtrim_last_of_not_ws (l : Chars) (c : Char) (hl : l.getLast? = some c)
    (h : isWs c = false) : rtrim l = l := by
  have hrev : l.reverse.head? = some c := by
    rw [← List.getLast?_eq_head?_reverse]
    exact hl
  cases hr : l.reverse with
  | nil => simp [hr] at hrev
  | cons d t =>
    have hd : d = c := by simp [hr] at hrev; exact hrev
    have : l.reverse.dropWhile isWs = l.reverse := by
      rw [hr, List.dropWhile_cons_of_neg]
      simp [hd, h]
    simp [rtrim, this]

theorem rtrim_ne_nil_of_mem (cs : Chars) (c : Char) (hc : c ∈ cs)
    (h : isWs c = false) : rtrim cs ≠ [] := by
  intro he
  have := (rtrim_eq_nil_iff cs).mp he c hc
  simp [this] at h

theorem rtrim_append_of_ne_nil (xs ys : Chars) (h : rtrim ys ≠ []) :
    rtrim (xs ++ ys) = xs ++ rtrim ys := by
  have hne : (ys.reverse.dropWhile isWs).isEmpty = false := by
    cases hd : ys.reverse.dropWhile isWs with
    | nil => exact absurd (by simp [rtrim, hd]) h
    | cons a t => simp
  simp only [rtrim, List.reverse_append, List.dropWhile_append, hne, if_false,
    Bool.false_eq_true, List.reverse_append, List.reverse_reverse]

theorem lineSafe_parts (l : Chars) (h : lineSafe l = true) :
    l ≠ [] ∧ '\n' ∉ l ∧ l.head?.all (fun c => !isWs c) = true ∧
      l.getLast?.all (fun c => !isWs c) = true := by
  have h' := h
  simp only [lineSafe, Bool.and_eq_true, Bool.not_eq_true'] at h'
  obtain ⟨⟨⟨h1, h2⟩, h3⟩, h4⟩ := h'
  refine ⟨by simpa using h1, ?_, h3, h4⟩
  intro hm
  simp [hm] at h2

theorem buildC_cons (l : Chars) (ls : List Chars) :
    buildC (l :: ls) = (l ++ ['\n']) ++ buildC ls := by
  simp [buildC]

theorem rtrim_buildC_ne_nil (ls : List Chars) (hls : ls ≠ [])
    (h : ∀ l ∈ ls, lineSafe l = true) : rtrim (buildC ls) ≠ [] := by
  cases ls with
  | nil => exact absurd rfl hls
  | cons l ls =>
    obtain ⟨h1, _, h3, _⟩ := lineSafe_parts l (h l (by simp))
    cases l with
    | nil => exact absurd rfl h1
    | cons c cs =>
      have hcw : isWs c = false := by simpa using h3
      refine rtrim_ne_nil_of_mem _ c ?_ hcw
      rw [buildC_cons]
      exact List.mem_append_left _ (by simp)

theorem filter_splitNl_rtrim_buildC (ls : List Chars)
    (h : ∀ l ∈ ls, lineSafe l = true) :
    (splitNl (rtrim (buildC ls))).filter (fun l => decide (0 < l.length)) = ls := by
  induction ls with
  | nil => simp [buildC, rtrim, splitNl, List.filter]
  | cons l ls ih =>
    obtain ⟨h1, h2, _, h4⟩ := lineSafe_parts l (h l (by simp))
    have hrest : ∀ x ∈ ls, lineSafe x = true := fun x hx => h x (by simp [hx])
    by_cases hne : ls = []
    · subst hne
      have hlast : ∃ c, l.getLast? = some c ∧ isWs c = false := by
        cases hg : l.getLast? with
        | none => exact absurd (List.getLast?_eq_none_iff.mp hg) h1
        | some c => exact ⟨c, rfl, by simpa [hg] using h4⟩
      obtain ⟨c, hg, hc⟩ := hlast
      have : rtrim (buildC [l]) = l := by
        have hb : buildC [l] = l ++ ['\n'] := by simp [buildC]
        rw [hb, rtrim_append_ws _ _ (by simp [isWs]), rtrim_last_of_not_ws l c hg hc]
      rw [this, splitNl_no_nl l h2]
      simp [List.filter_cons, List.length_pos_iff_ne_nil.mpr h1, h1]
    · have hrne : rtrim (buildC ls) ≠ [] := rtrim_buildC_ne_nil ls hne hrest
      have step : rtrim (buildC (l :: ls)) = l ++ '\n' :: rtrim (buildC ls) := by
        rw [buildC_cons, rtrim_append_of_ne_nil _ _ hrne]
        simp
      rw [step, splitNl_append l _ h2]
      rw [List.filter_cons, if_pos (by simpa using List.length_pos_iff_ne_nil.mpr h1)]
      rw [ih hrest]

/-! ## Round trip: `Json.parse (encVal j) = some j`. -/

theorem hexDigitChar_val (m : Nat) (h : m < 16) : hexVal? (hexDigitChar m) = some m := by
  interval_cases m <;> decide

theorem digitChar_facts (d : Nat) (h : d < 10) :
    digVal? (digitChar d) = some d ∧ digitChar d ≠ 'n' ∧ digitChar d ≠ 't' ∧
      digitChar d ≠ 'f' ∧ digitChar d ≠ '"' ∧ digitChar d ≠ '-' ∧
      digitChar d ≠ ']' ∧ digitChar d ≠ '}' := by
  interval_cases d <;> decide

theorem natDigitsAux_lt10 (fuel : Nat) : ∀ (n : Nat), ∀ d ∈ natDigitsAux fuel n, d < 10 := by
  induction fuel with
  | zero => intro n d hd; simp [natDigitsAux] at hd
  | succ f ih =>
    intro n d hd
    simp only [natDigitsAux] at hd
    split at hd
    · simp at hd
    · rcases List.mem_cons.mp hd with h1 | h2
      · subst h1; omega
      · exact ih _ d h2

theorem foldr_natDigitsAux (fuel : Nat) : ∀ (n : Nat), n ≤ fuel →
    (natDigitsAux fuel n).foldr (fun d a => 10 * a + d) 0 = n := by
  induction fuel with
  | zero => intro n h; have : n = 0 := by omega
            subst this; simp [natDigitsAux]
  | succ f ih =>
    intro n h
    by_cases hn : n = 0
    · subst hn; simp [natDigitsAux]
    · have hdiv : n / 10 < n := Nat.div_lt_self (by omega) (by omega)
      simp only [natDigitsAux, if_neg hn, List.foldr_cons]
      rw [ih (n / 10) (by omega)]
      omega

theorem bigDigits_lt10 (n : Nat) : ∀ d ∈ bigDigits n, d < 10 := by
  intro d hd
  unfold bigDigits at hd
  split at hd
  · simp at hd; omega
  · exact natDigitsAux_lt10 n n d (List.mem_reverse.mp hd)

theorem bigDigits_ne_nil (n : Nat) : bigDigits n ≠ [] := by
  unfold bigDigits
  split
  · simp
  · rename_i hn
    obtain ⟨m, rfl⟩ : ∃ m, n = m + 1 := ⟨n - 1, by omega⟩
    simp [natDigitsAux]

theorem digsToNat_bigDigits (n : Nat) : digsToNat (bigDigits n) = n := by
  unfold bigDigits digsToNat
  split
  · rename_i hn; subst hn; rfl
  · rw [List.foldl_reverse]
    exact foldr_natDigitsAux n n (le_refl n)

/-- The continuation after a serialized number must not begin with a
digit (in the grammar it is always `','`, `']'`, `'}'` or the end). -/
def noDigitHead : Chars → Prop
  | [] => True
  | c :: _ => digVal? c = none

theorem takeDigits_exact (ds : List Nat) (rest : Chars) (h : ∀ d ∈ ds, d < 10)
    (hr : noDigitHead rest) : takeDigits (ds.map digitChar ++ rest) = (ds, rest) := by
  induction ds with
  | nil =>
    cases rest with
    | nil => rfl
    | cons c t => simp [takeDigits, hr, noDigitHead] at hr ⊢; simp [hr]
  | cons d ds ih =>
    have hd := (digitChar_facts d (h d (by simp))).1
    simp [takeDigits, hd, ih (fun x hx => h x (by simp [hx]))]

theorem natChars_ne_nil (n : Nat) : natChars n ≠ [] := by
  unfold natChars
  simp [bigDigits_ne_nil n]

theorem natChars_head_digit (n : Nat) :
    ∃ d t, natChars n = digitChar d :: t ∧ d < 10 := by
  unfold natChars
  cases hb : bigDigits n with
  | nil => exact absurd hb (bigDigits_ne_nil n)
  | cons d ds =>
    exact ⟨d, ds.map digitChar, by simp, bigDigits_lt10 n d (by simp [hb])⟩

theorem takeDigits_natChars (n : Nat) (rest : Chars) (hr : noDigitHead rest) :
    takeDigits (natChars n ++ rest) = (bigDigits n, rest) :=
  takeDigits_exact (bigDigits n) rest (bigDigits_lt10 n) hr

theorem parseStrBody_escStr (s rest : Chars) (f : Nat) (hf : (escStr s).length < f) :
    parseStrBody f (escStr s ++ '"' :: rest) = some (s, rest) := by
  induction s generalizing f rest with
  | nil =>
    obtain ⟨f', rfl⟩ : ∃ f', f = f' + 1 := ⟨f - 1, by omega⟩
    simp [escStr, parseStrBody]
  | cons c s ih =>
    have hstep : escStr (c :: s) = escChar c ++ escStr s := by
      simp [escStr]
    rw [hstep, List.append_assoc]
    rw [hstep] at hf
    have hlen : (escChar c).length ≥ 1 := by
      unfold escChar
      split_ifs <;> simp
    obtain ⟨f', rfl⟩ : ∃ f', f = f' + 1 := ⟨f - 1, by omega⟩
    have hf' : (escStr s).length < f' := by
      simp [List.length_append] at hf
      omega
    unfold escChar
    split_ifs with h1 h2 h3 h4 h5 h6 h7 h8
    · subst h1; simp [parseStrBody, escStep, escDecode, ih _ _ hf']
    · subst h2; simp [parseStrBody, escStep, escDecode, ih _ _ hf']
    · subst h3; simp [parseStrBody, escStep, escDecode, ih _ _ hf']
    · subst h4; simp [parseStrBody, escStep, escDecode, ih _ _ hf']
    · subst h5; simp [parseStrBody, escStep, escDecode, ih _ _ hf']
    · subst h6; simp [parseStrBody, escStep, escDecode, ih _ _ hf']
    · subst h7; simp [parseStrBody, escStep, escDecode, ih _ _ hf']
    · have e0 : hexVal? ('0') = some 0 := by decide
      have e1 : hexVal? (hexDigitChar (c.toNat / 16)) = some (c.toNat / 16) :=
        hexDigitChar_val _ (by omega)
      have e2 : hexVal? (hexDigitChar (c.toNat % 16)) = some (c.toNat % 16) :=
        hexDigitChar_val _ (by omega)
      simp [parseStrBody, escStep, hex4, e0, e1, e2, ih _ _ hf']
      have hv : c.toNat / 16 * 16 + c.toNat % 16 = c.toNat := by omega
      rw [hv, Char.ofNat_toNat]
    · simp [parseStrBody, if_neg h1, if_neg h2, ih _ _ hf']

theorem noDigitHead_cons (c : Char) (t : Chars) (h : digVal? c = none) :
    noDigitHead (c :: t) := h

/-- First character of a serialized value: never a closing bracket or
brace (used to discriminate the empty-collection fast paths). -/
theorem encVal_head (j : Json) : ∃ c t, encVal j = c :: t ∧ c ≠ ']' ∧ c ≠ '}' := by
  cases j with
  | null => exact ⟨'n', ['u', 'l', 'l'], rfl, by decide, by decide⟩
  | bool b =>
    cases b with
    | true => exact ⟨'t', ['r', 'u', 'e'], rfl, by decide, by decide⟩
    | false => exact ⟨'f', ['a', 'l', 's', 'e'], rfl, by decide, by decide⟩
  | num i =>
    by_cases hi : i < 0
    · exact ⟨'-', natChars i.natAbs, by simp [encVal, intChars, hi], by decide, by decide⟩
    · obtain ⟨d, t, ht, hd⟩ := natChars_head_digit i.toNat
      obtain ⟨_, _, _, _, _, _, g7, g8⟩ := digitChar_facts d hd
      exact ⟨digitChar d, t, by simp [encVal, intChars, hi, ht], g7, g8⟩
  | str s => exact ⟨'"', escStr s.data ++ ['"'], rfl, by decide, by decide⟩
  | arr xs => exact ⟨'[', encItems xs ++ [']'], rfl, by decide, by decide⟩
  | obj kvs => exact ⟨'{', encMembers kvs ++ ['}'], rfl, by decide, by decide⟩

theorem encItems_head (x : Json) (xs : List Json) :
    ∃ c t, encItems (x :: xs) = c :: t ∧ c ≠ ']' ∧ c ≠ '}' := by
  obtain ⟨c, t, hct, h1, h2⟩ := encVal_head x
  cases xs with
  | nil => exact ⟨c, t, by simp [encItems, hct], h1, h2⟩
  | cons y ys =>
    exact ⟨c, t ++ ',' :: encItems (y :: ys), by simp [encItems, hct], h1, h2⟩

/-- A nonempty member list always serializes starting with a quote. -/
theorem encMembers_cons_quote (k : String) (v : Json) (ms : List (String × Json)) :
    ∃ t, encMembers ((k, v) :: ms) = '"' :: t := by
  cases ms with
  | nil => exact ⟨escStr k.data ++ ['"'] ++ ':' :: encVal v, by simp [encMembers, encString]⟩
  | cons m mms =>
    exact ⟨escStr k.data ++ ['"'] ++ ':' :: encVal v ++ ',' :: encMembers (m :: mms),
      by simp [encMembers, encString]⟩

mutual

/-- Fuel sufficient for `parseVal` to parse `encVal j`. -/
def fuelJ : Json → Nat
  | .arr xs => fuelItems xs + 1
  | .obj kvs => fuelMembers kvs + 1
  | _ => 1

/-- Fuel sufficient for `parseItems` on `encItems xs`. -/
def fuelItems : List Json → Nat
  | [] => 0
  | [x] => fuelJ x + 1
  | x :: y :: xs => max (fuelJ x) (fuelItems (y :: xs)) + 1

/-- Fuel sufficient for `parseMembers` on `encMembers ms`. -/
def fuelMembers : List (String × Json) → Nat
  | [] => 0
  | [(_, v)] => fuelJ v + 1
  | (_, v) :: m :: ms => max (fuelJ v) (fuelMembers (m :: ms)) + 1

end

theorem fuelJ_pos (j : Json) : 1 ≤ fuelJ j := by
  cases j <;> simp [fuelJ]

/-- One-step unfolding of `parseVal` at successor fuel on a cons cell. -/
theorem parseVal_cons (f : Nat) (c : Char) (cs : Chars) :
    parseVal (f + 1) (c :: cs) =
      (if c = 'n' then
        match cs with
        | 'u' :: 'l' :: 'l' :: r => some (Json.null, r)
        | _ => none
      else if c = 't' then
        match cs with
        | 'r' :: 'u' :: 'e' :: r => some (Json.bool true, r)
        | _ => none
      else if c = 'f' then
        match cs with
        | 'a' :: 'l' :: 's' :: 'e' :: r => some (Json.bool false, r)
        | _ => none
      else if c = '"' then
        match parseStrBody (cs.length + 1) cs with
        | some (s, r) => some (Json.str ⟨s⟩, r)
        | none => none
      else if c = '-' then
        match takeDigits cs with
        | ([], _) => none
        | (ds, r) => some (Json.num (-(digsToNat ds : Int)), r)
      else if (digVal? c).isSome then
        match takeDigits (c :: cs) with
        | (ds, r) => some (Json.num (digsToNat ds : Int), r)
      else if c = '[' then
        match cs with
        | ']' :: r => some (Json.arr [], r)
        | _ =>
          match parseItems f cs with
          | some (xs, r) => some (Json.arr xs, r)
          | none => none
      else if c = '{' then
        match cs with
        | '}' :: r => some (Json.obj [], r)
        | _ =>
          match parseMembers f cs with
          | some (ms, r) => some (Json.obj ms, r)
          | none => none
      else none) := rfl

/-- One-step unfolding of `parseItems` at successor fuel. -/
theorem parseItems_succ (f : Nat) (cs : Chars) :
    parseItems (f + 1) cs =
      (match parseVal f cs with
      | none => none
      | some (x, r) =>
        match r with
        | ',' :: r2 =>
          match parseItems f r2 with
          | some (xs, r3) => some (x :: xs, r3)
          | none => none
        | ']' :: r2 => some ([x], r2)
        | _ => none) := rfl

/-- One-step unfolding of `parseVal` at successor fuel on `'{'` followed
by a quote (the shape every nonempty serialized object has). -/
theorem parseVal_lbrace_quote (f : Nat) (t : Chars) :
    parseVal (f + 1) ('{' :: '"' :: t) =
      (match parseMembers f ('"' :: t) with
      | some (ms, r) => some (Json.obj ms, r)
      | none => none) := rfl

/-- One-step unfolding of `parseMembers` at successor fuel on a quote. -/
theorem parseMembers_quote (f : Nat) (cs1 : Chars) :
    parseMembers (f + 1) ('"' :: cs1) =
      (match parseStrBody (cs1.length + 1) cs1 with
      | none => none
      | some (k, r1) =>
        match r1 with
        | ':' :: r2 =>
          match parseVal f r2 with
          | none => none
          | some (v, r3) =>
            match r3 with
            | ',' :: r4 =>
              match parseMembers f r4 with
              | some (ms, r5) => some ((⟨k⟩, v) :: ms, r5)
              | none => none
            | '}' :: r4 => some ([(⟨k⟩, v)], r4)
            | _ => none
        | _ => none) := rfl

mutual

/-- The parser consumes exactly `encVal j` and returns `j`, leaving any
suffix that does not begin with a digit intact. -/
theorem rt_val (j : Json) (fuel : Nat) (hf : fuelJ j ≤ fuel) (rest : Chars)
    (hr : noDigitHead rest) : parseVal fuel (encVal j ++ rest) = some (j, rest) := by
  obtain ⟨f, rfl⟩ : ∃ f, fuel = f + 1 := ⟨fuel - 1, by have := fuelJ_pos j; omega⟩
  cases j with
  | null => rfl
  | bool b => cases b <;> rfl
  | num i =>
    by_cases hi : i < 0
    · have henc : encVal (Json.num i) ++ rest = '-' :: (natChars i.natAbs ++ rest) := by
        simp [encVal, intChars, hi]
      rw [henc, parseVal_cons,
        if_neg (by decide), if_neg (by decide), if_neg (by decide), if_neg (by decide),
        if_pos rfl, takeDigits_natChars _ _ hr]
      obtain ⟨d, ds, hbd⟩ : ∃ d ds, bigDigits i.natAbs = d :: ds := by
        cases hb : bigDigits i.natAbs with
        | nil => exact absurd hb (bigDigits_ne_nil _)
        | cons d ds => exact ⟨d, ds, rfl⟩
      rw [hbd]
      have hv : digsToNat (d :: ds) = i.natAbs := by
        rw [← hbd]; exact digsToNat_bigDigits _
      simp only [hv]
      have : -((i.natAbs : Int)) = i := by omega
      rw [this]
    · obtain ⟨d, t, ht, hd⟩ := natChars_head_digit i.toNat
      obtain ⟨g1, g2, g3, g4, g5, g6, _, _⟩ := digitChar_facts d hd
      have henc : encVal (Json.num i) ++ rest = digitChar d :: (t ++ rest) := by
        simp [encVal, intChars, hi, ht]
      rw [henc, parseVal_cons,
        if_neg g2, if_neg g3, if_neg g4, if_neg g5, if_neg g6,
        if_pos (by simp [g1])]
      have hback : digitChar d :: (t ++ rest) = natChars i.toNat ++ rest := by
        simp [ht]
      rw [hback, takeDigits_natChars _ _ hr]
      simp only [digsToNat_bigDigits]
      have : ((i.toNat : Int)) = i := by omega
      rw [this]
  | str s =>
    have henc : encVal (Json.str s) ++ rest = '"' :: (escStr s.data ++ '"' :: rest) := by
      simp [encVal, encString]
    rw [henc]
    have hq : parseVal (f + 1) ('"' :: (escStr s.data ++ '"' :: rest)) =
        (match parseStrBody ((escStr s.data ++ '"' :: rest).length + 1)
            (escStr s.data ++ '"' :: rest) with
        | some (s, r) => some (Json.str ⟨s⟩, r)
        | none => none) := parseVal_cons f '"' _ |>.trans (by rw [if_neg (by decide),
          if_neg (by decide), if_neg (by decide), if_pos rfl])
    rw [hq, parseStrBody_escStr _ _ _ (by simp [List.length_append]; omega)]
  | arr xs =>
    cases xs with
    | nil => rfl
    | cons x xs =>
      have hfi : fuelItems (x :: xs) ≤ f := by
        have : fuelJ (Json.arr (x :: xs)) = fuelItems (x :: xs) + 1 := rfl
        omega
      obtain ⟨c, t, hct, hc1, _⟩ := encItems_head x xs
      have henc : encVal (Json.arr (x :: xs)) ++ rest =
          '[' :: (encItems (x :: xs) ++ ']' :: rest) := by
        simp [encVal]
      rw [henc, parseVal_cons,
        if_neg (by decide), if_neg (by decide), if_neg (by decide), if_neg (by decide),
        if_neg (by decide), if_neg (by decide), if_pos rfl]
      rw [hct, List.cons_append]
      split
      · rename_i r heq
        injection heq with hh _
        exact absurd hh hc1
      · rw [← List.cons_append, ← hct, rt_items (x :: xs) (by simp) f hfi rest]
  | obj kvs =>
    cases kvs with
    | nil => rfl
    | cons m ms =>
      have hfm : fuelMembers (m :: ms) ≤ f := by
        have : fuelJ (Json.obj (m :: ms)) = fuelMembers (m :: ms) + 1 := rfl
        omega
      obtain ⟨k, v⟩ := m
      obtain ⟨T, hT⟩ := encMembers_cons_quote k v ms
      have henc : encVal (Json.obj ((k, v) :: ms)) ++ rest =
          '{' :: '"' :: (T ++ '}' :: rest) := by
        have h0 : encVal (Json.obj ((k, v) :: ms)) =
            '{' :: encMembers ((k, v) :: ms) ++ ['}'] := rfl
        rw [h0, hT]
        simp
      rw [henc, parseVal_lbrace_quote]
      have hback : ('"' :: (T ++ '}' :: rest) : Chars) =
          encMembers ((k, v) :: ms) ++ '}' :: rest := by
        rw [hT]
        simp
      rw [hback, rt_members ((k, v) :: ms) (by simp) f hfm rest]

/-- `parseItems` consumes a comma-separated nonempty `encItems xs`
followed by `']'`. -/
theorem rt_items (xs : List Json) (hne : xs ≠ []) (fuel : Nat)
    (hf : fuelItems xs ≤ fuel) (rest : Chars) :
    parseItems fuel (encItems xs ++ ']' :: rest) = some (xs, rest) := by
  match xs, hne with
  | [x], _ =>
    have hfx : fuelJ x + 1 ≤ fuel := by
      have : fuelItems [x] = fuelJ x + 1 := rfl
      omega
    obtain ⟨f, rfl⟩ : ∃ f, fuel = f + 1 := ⟨fuel - 1, by omega⟩
    rw [parseItems_succ]
    rw [show encItems [x] = encVal x from rfl]
    rw [rt_val x f (by omega) (']' :: rest) (noDigitHead_cons _ _ (by decide))]
    rfl
  | x :: y :: ys, _ =>
    have hfx : max (fuelJ x) (fuelItems (y :: ys)) + 1 ≤ fuel := by
      have : fuelItems (x :: y :: ys) = max (fuelJ x) (fuelItems (y :: ys)) + 1 := rfl
      omega
    obtain ⟨f, rfl⟩ : ∃ f, fuel = f + 1 := ⟨fuel - 1, by omega⟩
    rw [parseItems_succ]
    have henc : encItems (x :: y :: ys) ++ ']' :: rest =
        encVal x ++ (',' :: (encItems (y :: ys) ++ ']' :: rest)) := by
      simp [encItems]
    rw [henc, rt_val x f (by omega) _ (noDigitHead_cons _ _ (by decide))]
    show (match parseItems f (encItems (y :: ys) ++ ']' :: rest) with
        | some (xs, r3) => some (x :: xs, r3)
        | none => none) = some (x :: y :: ys, rest)
    rw [rt_items (y :: ys) (by simp) f (by omega) rest]

/-- `parseMembers` consumes a comma-separated nonempty `encMembers ms`
followed by `'}'`. -/
theorem rt_members (ms : List (String × Json)) (hne : ms ≠ []) (fuel : Nat)
    (hf : fuelMembers ms ≤ fuel) (rest : Chars) :
    parseMembers fuel (encMembers ms ++ '}' :: rest) = some (ms, rest) := by
  match ms, hne with
  | [(k, v)], _ =>
    have hfv : fuelJ v + 1 ≤ fuel := by
      have : fuelMembers [(k, v)] = fuelJ v + 1 := rfl
      omega
    obtain ⟨f, rfl⟩ : ∃ f, fuel = f + 1 := ⟨fuel - 1, by omega⟩
    have henc : encMembers [(k, v)] ++ '}' :: rest =
        '"' :: (escStr k.data ++ '"' :: (':' :: (encVal v ++ '}' :: rest))) := by
      simp [encMembers, encString]
    rw [henc, parseMembers_quote,
      parseStrBody_escStr _ _ _ (by simp [List.length_append]; omega)]
    show (match parseVal f (encVal v ++ '}' :: rest) with
        | none => none
        | some (v2, r3) =>
          match r3 with
          | ',' :: r4 =>
            match parseMembers f r4 with
            | some (ms2, r5) => some ((⟨k.data⟩, v2) :: ms2, r5)
            | none => none
          | '}' :: r4 => some ([(⟨k.data⟩, v2)], r4)
          | _ => none) = some ([(k, v)], rest)
    rw [rt_val v f (by omega) _ (noDigitHead_cons _ _ (by decide))]
    rfl
  | (k, v) :: m :: ms, _ =>
    have hfv : max (fuelJ v) (fuelMembers (m :: ms)) + 1 ≤ fuel := by
      have : fuelMembers ((k, v) :: m :: ms) =
          max (fuelJ v) (fuelMembers (m :: ms)) + 1 := rfl
      omega
    obtain ⟨f, rfl⟩ : ∃ f, fuel = f + 1 := ⟨fuel - 1, by omega⟩
    have henc : encMembers ((k, v) :: m :: ms) ++ '}' :: rest =
        '"' :: (escStr k.data ++ '"' :: (':' :: (encVal v ++
          ',' :: (encMembers (m :: ms) ++ '}' :: rest)))) := by
      simp [encMembers, encString]
    rw [henc, parseMembers_quote,
      parseStrBody_escStr _ _ _ (by simp [List.length_append]; omega)]
    show (match parseVal f (encVal v ++ ',' :: (encMembers (m :: ms) ++ '}' :: rest)) with
        | none => none
        | some (v2, r3) =>
          match r3 with
          | ',' :: r4 =>
            match parseMembers f r4 with
            | some (ms2, r5) => some ((⟨k.data⟩, v2) :: ms2, r5)
            | none => none
          | '}' :: r4 => some ([(⟨k.data⟩, v2)], r4)
          | _ => none) = some ((k, v) :: m :: ms, rest)
    rw [rt_val v f (by omega) _ (noDigitHead_cons _ _ (by decide))]
    show (match parseMembers f (encMembers (m :: ms) ++ '}' :: rest) with
        | some (ms2, r5) => some ((⟨k.data⟩, v) :: ms2, r5)
        | none => none) = some ((k, v) :: m :: ms, rest)
    rw [rt_members (m :: ms) (by simp) f (by omega) rest]

end

mutual

theorem fuelJ_le_length (j : Json) : fuelJ j ≤ (encVal j).length := by
  cases j with
  | null => decide
  | bool b => cases b <;> decide
  | num i =>
    have h1 : fuelJ (Json.num i) = 1 := rfl
    have h2 : natChars i.toNat ≠ [] := natChars_ne_nil _
    have h3 : natChars i.natAbs ≠ [] := natChars_ne_nil _
    rw [h1]
    show 1 ≤ (intChars i).length
    unfold intChars
    split_ifs
    · simp
    · have := List.length_pos.mpr h2
      omega
  | str s =>
    show fuelJ (Json.str s) ≤ ('"' :: (escStr s.data ++ ['"'])).length
    have : fuelJ (Json.str s) = 1 := rfl
    simp [this]
  | arr xs =>
    have h1 : fuelJ (Json.arr xs) = fuelItems xs + 1 := rfl
    have h2 : (encVal (Json.arr xs)).length = (encItems xs).length + 2 := by
      show ('[' :: (encItems xs ++ [']'])).length = _
      simp
    have h3 := fuelItems_le_length xs
    omega
  | obj kvs =>
    have h1 : fuelJ (Json.obj kvs) = fuelMembers kvs + 1 := rfl
    have h2 : (encVal (Json.obj kvs)).length = (encMembers kvs).length + 2 := by
      show ('{' :: (encMembers kvs ++ ['}'])).length = _
      simp
    have h3 := fuelMembers_le_length kvs
    omega

theorem fuelItems_le_length (xs : List Json) :
    fuelItems xs ≤ (encItems xs).length + 1 := by
  match xs with
  | [] => simp [fuelItems, encItems]
  | [x] =>
    have h1 : fuelItems [x] = fuelJ x + 1 := rfl
    have h2 : (encItems [x]).length = (encVal x).length := by
      rw [show encItems [x] = encVal x from rfl]
    have h3 := fuelJ_le_length x
    omega
  | x :: y :: ys =>
    have h1 : fuelItems (x :: y :: ys) = max (fuelJ x) (fuelItems (y :: ys)) + 1 := rfl
    have h2 : (encItems (x :: y :: ys)).length =
        (encVal x).length + 1 + (encItems (y :: ys)).length := by
      show (encVal x ++ ',' :: encItems (y :: ys)).length = _
      simp
      omega
    have h3 := fuelJ_le_length x
    have h4 := fuelItems_le_length (y :: ys)
    omega

theorem fuelMembers_le_length (ms : List (String × Json)) :
    fuelMembers ms ≤ (encMembers ms).length + 1 := by
  match ms with
  | [] => simp [fuelMembers, encMembers]
  | [(k, v)] =>
    have h1 : fuelMembers [(k, v)] = fuelJ v + 1 := rfl
    have h2 : (encMembers [(k, v)]).length =
        (encString k.data).length + 1 + (encVal v).length := by
      show (encString k.data ++ ':' :: encVal v).length = _
      simp
      omega
    have h3 := fuelJ_le_length v
    omega
  | (k, v) :: m :: mms =>
    have h1 : fuelMembers ((k, v) :: m :: mms) =
        max (fuelJ v) (fuelMembers (m :: mms)) + 1 := rfl
    have h2 : (encMembers ((k, v) :: m :: mms)).length =
        (encString k.data).length + 1 + (encVal v).length + 1 +
          (encMembers (m :: mms)).length := by
      show (encString k.data ++ ':' :: encVal v ++ ',' :: encMembers (m :: mms)).length = _
      simp
      omega
    have h3 := fuelJ_le_length v
    have h4 := fuelMembers_le_length (m :: mms)
    omega

end

/-- The round trip at the heart of JSONL persistence: parsing a
serialized value recovers it exactly. -/
theorem json_parse_encVal (j : Json) : Json.parse (encVal j) = some j := by
  have h := rt_val j ((encVal j).length + 1)
    (by have := fuelJ_le_length j; omega) [] trivial
  rw [List.append_nil] at h
  simp [Json.parse, h]

theorem hexDigitChar_ge32 (m : Nat) (h : m < 16) : 32 ≤ (hexDigitChar m).toNat := by
  interval_cases m <;> decide

theorem digitChar_ge32 (d : Nat) (h : d < 10) : 32 ≤ (digitChar d).toNat := by
  interval_cases d <;> decide

theorem escChar_ge32 (c : Char) : ∀ x ∈ escChar c, 32 ≤ x.toNat := by
  unfold escChar
  split_ifs with h1 h2 h3 h4 h5 h6 h7 h8 <;> intro x hx
  · simp at hx; rcases hx with rfl | rfl <;> decide
  · simp at hx; rcases hx with rfl | rfl <;> decide
  · simp at hx; rcases hx with rfl | rfl <;> decide
  · simp at hx; rcases hx with rfl | rfl <;> decide
  · simp at hx; rcases hx with rfl | rfl <;> decide
  · simp at hx; rcases hx with rfl | rfl <;> decide
  · simp at hx; rcases hx with rfl | rfl <;> decide
  · simp at hx
    rcases hx with rfl | rfl | rfl | rfl | rfl
    · decide
    · decide
    · decide
    · exact hexDigitChar_ge32 (c.toNat / 16) (by omega)
    · exact hexDigitChar_ge32 (c.toNat % 16) (by omega)
  · simp at hx
    subst hx
    omega

theorem escStr_ge32 (cs : Chars) : ∀ x ∈ escStr cs, 32 ≤ x.toNat := by
  intro x hx
  unfold escStr at hx
  obtain ⟨l, hl, hxl⟩ := List.mem_flatten.mp hx
  obtain ⟨c, _, rfl⟩ := List.mem_map.mp hl
  exact escChar_ge32 c x hxl

theorem encString_ge32 (cs : Chars) : ∀ x ∈ encString cs, 32 ≤ x.toNat := by
  intro x hx
  rcases List.mem_cons.mp hx with rfl | hm
  · decide
  · rcases List.mem_append.mp hm with h | h
    · exact escStr_ge32 cs x h
    · simp at h; subst h; decide

theorem natChars_ge32 (n : Nat) : ∀ x ∈ natChars n, 32 ≤ x.toNat := by
  intro x hx
  unfold natChars at hx
  obtain ⟨d, hd, rfl⟩ := List.mem_map.mp hx
  exact digitChar_ge32 d (bigDigits_lt10 n d hd)

theorem intChars_ge32 (i : Int) : ∀ x ∈ intChars i, 32 ≤ x.toNat := by
  intro x hx
  unfold intChars at hx
  split_ifs at hx
  · rcases List.mem_cons.mp hx with rfl | hm
    · decide
    · exact natChars_ge32 _ x hm
  · exact natChars_ge32 _ x hx

mutual

theorem encVal_ge32 (j : Json) : ∀ x ∈ encVal j, 32 ≤ x.toNat := by
  cases j with
  | null => decide
  | bool b => cases b <;> decide
  | num i =>
    show ∀ x ∈ intChars i, 32 ≤ x.toNat
    exact intChars_ge32 i
  | str s =>
    show ∀ x ∈ '"' :: (escStr s.data ++ ['"']), 32 ≤ x.toNat
    intro x hx
    rcases List.mem_cons.mp hx with rfl | hm
    · decide
    · rcases List.mem_append.mp hm with h | h
      · exact escStr_ge32 _ x h
      · simp at h; subst h; decide
  | arr xs =>
    show ∀ x ∈ '[' :: (encItems xs ++ [']']), 32 ≤ x.toNat
    intro x hx
    rcases List.mem_cons.mp hx with rfl | hm
    · decide
    · rcases List.mem_append.mp hm with h | h
      · exact encItems_ge32 xs x h
      · simp at h; subst h; decide
  | obj kvs =>
    show ∀ x ∈ '{' :: (encMembers kvs ++ ['}']), 32 ≤ x.toNat
    intro x hx
    rcases List.mem_cons.mp hx with rfl | hm
    · decide
    · rcases List.mem_append.mp hm with h | h
      · exact encMembers_ge32 kvs x h
      · simp at h; subst h; decide

theorem encItems_ge32 (xs : List Json) : ∀ x ∈ encItems xs, 32 ≤ x.toNat := by
  match xs with
  | [] => intro x hx; simp [encItems] at hx
  | [x0] =>
    show ∀ x ∈ encVal x0, 32 ≤ x.toNat
    exact encVal_ge32 x0
  | x0 :: y :: ys =>
    show ∀ x ∈ encVal x0 ++ ',' :: encItems (y :: ys), 32 ≤ x.toNat
    intro x hx
    rcases List.mem_append.mp hx with h | h
    · exact encVal_ge32 x0 x h
    · rcases List.mem_cons.mp h with rfl | hm
      · decide
      · exact encItems_ge32 (y :: ys) x hm

theorem encMembers_ge32 (ms : List (String × Json)) :
    ∀ x ∈ encMembers ms, 32 ≤ x.toNat := by
  match ms with
  | [] => intro x hx; simp [encMembers] at hx
  | [(k, v)] =>
    show ∀ x ∈ encString k.data ++ ':' :: encVal v, 32 ≤ x.toNat
    intro x hx
    rcases List.mem_append.mp hx with h | h
    · exact encString_ge32 k.data x h
    · rcases List.mem_cons.mp h with rfl | hm
      · decide
      · exact encVal_ge32 v x hm
  | (k, v) :: m :: mms =>
    show ∀ x ∈ encString k.data ++ ':' :: encVal v ++ ',' :: encMembers (m :: mms),
      32 ≤ x.toNat
    intro x hx
    rcases List.mem_append.mp hx with h | h
    · rcases List.mem_append.mp h with h1 | h1
      · exact encString_ge32 k.data x h1
      · rcases List.mem_cons.mp h1 with rfl | hm
        · decide
        · exact encVal_ge32 v x hm
    · rcases List.mem_cons.mp h with rfl | hm
      · decide
      · exact encMembers_ge32 (m :: mms) x hm

end

/-- Any serialized object is a safe JSONL line: nonempty, newline-free,
and brace-delimited at both ends. -/
theorem lineSafe_encVal_obj (kvs : List (String × Json)) :
    lineSafe (encVal (Json.obj kvs)) = true := by
  have h0 : encVal (Json.obj kvs) = ('{' :: encMembers kvs) ++ ['}'] := by
    show '{' :: (encMembers kvs ++ ['}']) = _
    simp
  have hnm : ¬('\n' ∈ ('{' :: encMembers kvs) ++ ['}']) := by
    rw [← h0]
    intro hm
    have := encVal_ge32 (Json.obj kvs) '\n' hm
    revert this
    decide
  have hh : (('{' :: encMembers kvs) ++ ['}']).head? = some '{' := rfl
  rw [lineSafe, h0, List.getLast?_concat, hh]
  simp only [Bool.and_eq_true, Bool.not_eq_true']
  refine ⟨⟨⟨?_, ?_⟩, ?_⟩, ?_⟩
  · simp
  · simpa using hnm
  · decide
  · decide

theorem fileLines_buildC (ls : List Chars) (h : ∀ l ∈ ls, lineSafe l = true) :
    fileLines (buildC ls) = ls := by
  cases ls with
  | nil => simp [buildC, fileLines, jsTrim, ltrim, rtrim, splitNl, List.filter]
  | cons l ls =>
    obtain ⟨h1, _, h3, _⟩ := lineSafe_parts l (h l (by simp))
    have hlt : ltrim (buildC (l :: ls)) = buildC (l :: ls) := by
      cases l with
      | nil => exact absurd rfl h1
      | cons c cs =>
        have hcw : isWs c = false := by simpa using h3
        rw [buildC_cons]
        simpa using ltrim_cons_of_not_ws c _ hcw
    rw [fileLines, jsTrim, hlt]
    exact filter_splitNl_rtrim_buildC (l :: ls) h

/-! ## Store-level lemmas. -/

/-- The raw line written for each receipt, oldest first. -/
def mkLines (rs : List Receipt) : List Chars :=
  rs.map (fun r => encVal (receiptJson r))

theorem lineSafe_receiptLine (r : Receipt) :
    lineSafe (encVal (receiptJson r)) = true :=
  lineSafe_encVal_obj _

theorem fileLines_mkLines (rs : List Receipt) :
    fileLines (buildC (mkLines rs)) = mkLines rs := by
  refine fileLines_buildC _ ?_
  intro l hl
  obtain ⟨r, _, rfl⟩ := List.mem_map.mp hl
  exact lineSafe_receiptLine r

theorem parseLinesOut_mkLines (rs : List Receipt) :
    parseLinesOut (mkLines rs) = rs.map receiptJson := by
  unfold parseLinesOut mkLines
  rw [List.filterMap_map, List.filterMap_map]
  have hfn : (id ∘ (fun l => Json.parse l)) ∘ (fun r => encVal (receiptJson r)) =
      some ∘ receiptJson := by
    funext r
    simp [json_parse_encVal]
  rw [hfn, List.filterMap_eq_map]

theorem parseDiags_mkLines (mk : Chars → Diag) (rs : List Receipt) :
    parseDiags mk (mkLines rs) = [] := by
  unfold parseDiags mkLines
  rw [List.filterMap_eq_nil_iff]
  intro l hl
  obtain ⟨r, _, rfl⟩ := List.mem_map.mp hl
  simp [json_parse_encVal]

theorem appendAll_cons (r : Receipt) (rs : List Receipt) (s : FsState) :
    appendAll (r :: rs) s = appendAll rs ((logReceipt false r s).1) := rfl

theorem appendAll_receipts (rs : List Receipt) (s : FsState) (h : rs ≠ []) :
    (appendAll rs s).receipts = some (s.receipts.getD [] ++ buildC (mkLines rs)) := by
  induction rs generalizing s with
  | nil => exact absurd rfl h
  | cons r rs ih =>
    rw [appendAll_cons]
    cases hrs : rs with
    | nil =>
      subst hrs
      show ((logReceipt false r s).1).receipts = _
      simp [logReceipt, mkLines, buildC]
    | cons r2 rs2 =>
      rw [← hrs, ih ((logReceipt false r s).1) (by simp [hrs])]
      simp [logReceipt, mkLines, buildC, List.append_assoc]

theorem appendAll_errors (rs : List Receipt) (s : FsState) :
    (appendAll rs s).errors = s.errors := by
  induction rs generalizing s with
  | nil => rfl
  | cons r rs ih =>
    rw [appendAll_cons, ih]
    simp [logReceipt]

theorem readReceipts_some (content : Chars) (s : FsState) (h : s.receipts = some content) :
    readReceipts false s = (s, parseLinesOut (fileLines content),
      parseDiags Diag.receiptParseFail (fileLines content)) := by
  simp [readReceipts, h]

theorem getRecentReceipts_some (content : Chars) (count : Int) (s : FsState)
    (h : s.receipts = some content) :
    getRecentReceipts false count s =
      (s, parseLinesOut (jsSlice (-count) (fileLines content)),
        parseDiags Diag.receiptParseFail (jsSlice (-count) (fileLines content))) := by
  simp [getRecentReceipts, h]

theorem jsSlice_neg (c : Int) (hc : 1 ≤ c) (l : List α) :
    jsSlice (-c) l = l.drop (l.length - c.toNat) := by
  have h1 : jsSlice (-c) l = l.drop ((if -c < 0 then
      max ((l.length : Int) + -c) 0 else min (-c) (l.length : Int)).toNat) := rfl
  rw [h1, if_pos (by omega)]
  congr 1
  omega

theorem jsSlice_nonneg (c : Int) (hc : 0 ≤ c) (l : List α) :
    jsSlice c l = l.drop (min c.toNat l.length) := by
  have h1 : jsSlice c l = l.drop ((if c < 0 then
      max ((l.length : Int) + c) 0 else min c (l.length : Int)).toNat) := rfl
  rw [h1, if_neg (by omega)]
  congr 1
  omega

theorem parseLinesOut_eq_filterMap (ls : List Chars) :
    parseLinesOut ls = ls.filterMap (fun l => Json.parse l) := by
  unfold parseLinesOut
  rw [List.filterMap_map]
  rfl

theorem readErrors_some (content : Chars) (s : FsState) (h : s.errors = some content) :
    readErrors false s = (s, parseLinesOut (fileLines content),
      parseDiags Diag.errorParseFail (fileLines content)) := by
  simp [readErrors, h]

/-- The receipts file after an interleaving depends only on the receipt
actions in it. -/
theorem exec_receipts_eq (acts : List Act) : ∀ (s s' : FsState),
    s.receipts = s'.receipts →
    (exec acts s).receipts = (exec (acts.filter isRcpt) s').receipts := by
  induction acts with
  | nil => intro s s' h; simpa [exec] using h
  | cons a acts ih =>
    intro s s' h
    cases a with
    | rcpt b r =>
      have hfil : (Act.rcpt b r :: acts).filter isRcpt =
          Act.rcpt b r :: acts.filter isRcpt := by
        simp [List.filter_cons, isRcpt]
      rw [show exec (Act.rcpt b r :: acts) s = exec acts (applyAct s (Act.rcpt b r))
        from rfl, hfil]
      rw [show exec (Act.rcpt b r :: acts.filter isRcpt) s' =
        exec (acts.filter isRcpt) (applyAct s' (Act.rcpt b r)) from rfl]
      apply ih
      cases b <;> simp [applyAct, logReceipt, h]
    | err b e =>
      have hfil : (Act.err b e :: acts).filter isRcpt = acts.filter isRcpt := by
        simp [List.filter_cons, isRcpt]
      rw [show exec (Act.err b e :: acts) s = exec acts (applyAct s (Act.err b e))
        from rfl, hfil]
      apply ih
      cases b <;> simp [applyAct, logError, h]

/-- The errors file after an interleaving depends only on the error
actions in it. -/
theorem exec_errors_eq (acts : List Act) : ∀ (s s' : FsState),
    s.errors = s'.errors →
    (exec acts s).errors = (exec (acts.filter (fun a => !isRcpt a)) s').errors := by
  induction acts with
  | nil => intro s s' h; simpa [exec] using h
  | cons a acts ih =>
    intro s s' h
    cases a with
    | rcpt b r =>
      have hfil : (Act.rcpt b r :: acts).filter (fun a => !isRcpt a) =
          acts.filter (fun a => !isRcpt a) := by
        simp [List.filter_cons, isRcpt]
      rw [show exec (Act.rcpt b r :: acts) s = exec acts (applyAct s (Act.rcpt b r))
        from rfl, hfil]
      apply ih
      cases b <;> simp [applyAct, logReceipt, h]
    | err b e =>
      have hfil : (Act.err b e :: acts).filter (fun a => !isRcpt a) =
          Act.err b e :: acts.filter (fun a => !isRcpt a) := by
        simp [List.filter_cons, isRcpt]
      rw [show exec (Act.err b e :: acts) s = exec acts (applyAct s (Act.err b e))
        from rfl, hfil]
      rw [show exec (Act.err b e :: acts.filter (fun a => !isRcpt a)) s' =
        exec (acts.filter (fun a => !isRcpt a)) (applyAct s' (Act.err b e)) from rfl]
      apply ih
      cases b <;> simp [applyAct, logError, h]

theorem readReceipts_congr (b : Bool) (s s' : FsState) (h : s.receipts = s'.receipts) :
    (readReceipts b s).2 = (readReceipts b s').2 := by
  cases hr : s'.receipts <;> cases b <;> simp [readReceipts, h, hr]

theorem getRecentReceipts_congr (b : Bool) (c : Int) (s s' : FsState)
    (h : s.receipts = s'.receipts) :
    (getRecentReceipts b c s).2 = (getRecentReceipts b c s').2 := by
  cases hr : s'.receipts <;> cases b <;> simp [getRecentReceipts, h, hr]

theorem readErrors_congr (b : Bool) (s s' : FsState) (h : s.errors = s'.errors) :
    (readErrors b s).2 = (readErrors b s').2 := by
  cases hr : s'.errors <;> cases b <;> simp [readErrors, h, hr]

/-- Length bookkeeping: every line either parses (into the result) or
fails (into the diagnostics). -/
theorem filterMap_isSome_split {α β γ : Type} (f : α → Option β) (g : α → γ)
    (l : List α) :
    (l.filterMap f).length +
      (l.filterMap (fun a => if (f a).isSome then none else some (g a))).length =
      l.length := by
  induction l with
  | nil => rfl
  | cons a l ih =>
    cases hfa : f a <;> simp [List.filterMap_cons, hfa] <;> omega

theorem filterMap_isNone_split {α β : Type} (f : α → Option β) (l : List α) :
    (l.filterMap f).length + (l.filter (fun a => (f a).isNone)).length = l.length := by
  induction l with
  | nil => rfl
  | cons a l ih =>
    cases hfa : f a <;> simp [List.filterMap_cons, List.filter_cons, hfa] <;> omega

/-! ## Example records used by the witnesses. -/

/-- A minimal receipt: only the required fields. -/
def rA : Receipt := ⟨"2024-01-01T00:00:00Z", "0xA", none, "c1", "n1", "h1", none, none⟩

/-- A receipt exercising every optional field, an opaque nested payload,
a negative number, and escaped characters in a string. -/
def rB : Receipt := ⟨"2024-01-01T00:00:05Z", "0xB", some 7, "c2", "n2", "h2",
  some (Json.arr [Json.num (-3), Json.str ("x\ny"), Json.null]), some true⟩

/-- A third receipt, with the dev-fee flag set to false. -/
def rC : Receipt := ⟨"t3", "0xC", none, "c3", "n3", "h3", none, some false⟩

/-- A raw line that is not valid JSON. -/
def oops : Chars := ['o', 'o', 'p', 's']

/-- An example error record. -/
def eA : ErrorLog := ⟨"t4", "0xE", none, "c4", "n4", "h4", "boom", none⟩

/-- A second error record, with the optional fields populated and an
opaque response payload. -/
def eB : ErrorLog := ⟨"t5", "0xF", some 3, "c5", "n5", "h5", "bad nonce",
  some (Json.obj [(("code" : String), Json.num 408)])⟩

/-! ## The claims. -/

/-- C1: the spec says `getRecentReceipts(0)` returns an empty sequence,
but the code computes `lines.slice(-0) = lines.slice(0)`, the whole
array: on a store holding one appended receipt, count `0` returns that
receipt.  This evaluates the code at the failing input. -/
theorem c1_getRecentReceipts_zero_count_returns_all :
    (getRecentReceipts false 0 ((logReceipt false rA ⟨none, none⟩).1)).2.1 =
      [receiptJson rA] ∧ ([receiptJson rA] : List Json) ≠ [] :=
  ⟨rfl, by simp⟩

/-- C2: appending `n` valid records in order onto an absent or empty
receipts file and then reading yields exactly those `n` records (as JS
values, i.e. `receiptJson` images) in append order, with no diagnostics;
in particular the last element is the image of the last appended record. -/
theorem c2_appendAll_readReceipts_roundtrip (rs : List Receipt) (s0 : FsState)
    (h0 : s0.receipts = none ∨ s0.receipts = some []) :
    (readReceipts false (appendAll rs s0)).2.1 = rs.map receiptJson ∧
    (readReceipts false (appendAll rs s0)).2.1.getLast? =
      (rs.map receiptJson).getLast? ∧
    (readReceipts false (appendAll rs s0)).2.2 = [] := by
  have hmain : (readReceipts false (appendAll rs s0)).2.1 = rs.map receiptJson ∧
      (readReceipts false (appendAll rs s0)).2.2 = [] := by
    cases rs with
    | nil =>
      show (readReceipts false s0).2.1 = [] ∧ (readReceipts false s0).2.2 = []
      rcases h0 with h | h
      · simp [readReceipts, h]
      · rw [readReceipts_some [] s0 h]
        have hf : fileLines ([] : Chars) = [] := rfl
        simp [hf, parseLinesOut, parseDiags]
    | cons r rs' =>
      have hrec := appendAll_receipts (r :: rs') s0 (by simp)
      have hgd : s0.receipts.getD [] = [] := by rcases h0 with h | h <;> simp [h]
      rw [hgd, List.nil_append] at hrec
      rw [readReceipts_some _ _ hrec]
      rw [fileLines_mkLines, parseLinesOut_mkLines, parseDiags_mkLines]
      exact ⟨rfl, rfl⟩
  exact ⟨hmain.1, by rw [hmain.1], hmain.2⟩

theorem c2_appendAll_readReceipts_roundtrip_witness :
    (readReceipts false (appendAll [rA, rB] ⟨none, none⟩)).2.1 =
      [rA, rB].map receiptJson ∧
    (readReceipts false (appendAll [rA, rB] ⟨none, none⟩)).2.1.getLast? =
      ([rA, rB].map receiptJson).getLast? ∧
    (readReceipts false (appendAll [rA, rB] ⟨none, none⟩)).2.2 = [] :=
  c2_appendAll_readReceipts_roundtrip [rA, rB] ⟨none, none⟩ (Or.inl rfl)

/-- C3: for `k ≥ 1`, on a store with `n` appended records and no corrupt
lines, `getRecentReceipts k` returns the last `min(k, n)` appended
records in original order — all of them when `k > n`, never a fault. -/
theorem c3_getRecentReceipts_tail_semantics (k : Int) (hk : 1 ≤ k)
    (rs : List Receipt) :
    (getRecentReceipts false k (appendAll rs ⟨none, none⟩)).2.1 =
      (rs.map receiptJson).drop (rs.length - k.toNat) ∧
    (getRecentReceipts false k (appendAll rs ⟨none, none⟩)).2.1.length =
      min k.toNat rs.length := by
  cases rs with
  | nil =>
    constructor
    · show (getRecentReceipts false k ⟨none, none⟩).2.1 = _
      simp [getRecentReceipts]
    · show (getRecentReceipts false k ⟨none, none⟩).2.1.length = _
      simp [getRecentReceipts]
  | cons r rs' =>
    have hrec := appendAll_receipts (r :: rs') ⟨none, none⟩ (by simp)
    rw [show (FsState.mk none none).receipts.getD [] = [] from rfl,
      List.nil_append] at hrec
    have hlen : (mkLines (r :: rs')).length = (r :: rs').length := by simp [mkLines]
    have hout : (getRecentReceipts false k (appendAll (r :: rs') ⟨none, none⟩)).2.1 =
        ((r :: rs').map receiptJson).drop ((r :: rs').length - k.toNat) := by
      rw [getRecentReceipts_some _ k _ hrec]
      show parseLinesOut (jsSlice (-k) (fileLines (buildC (mkLines (r :: rs'))))) = _
      rw [fileLines_mkLines, jsSlice_neg k hk, hlen]
      rw [show (mkLines (r :: rs')).drop ((r :: rs').length - k.toNat) =
          mkLines ((r :: rs').drop ((r :: rs').length - k.toNat)) from by
        simp [mkLines, List.map_drop]]
      rw [parseLinesOut_mkLines]
      simp [List.map_drop]
    refine ⟨hout, ?_⟩
    rw [hout]
    simp
    omega

theorem c3_getRecentReceipts_tail_semantics_witness :
    ((getRecentReceipts false 2 (appendAll [rA, rB, rC] ⟨none, none⟩)).2.1 =
      ([rA, rB, rC].map receiptJson).drop ([rA, rB, rC].length - (2 : Int).toNat) ∧
     (getRecentReceipts false 2 (appendAll [rA, rB, rC] ⟨none, none⟩)).2.1.length =
      min (2 : Int).toNat [rA, rB, rC].length) ∧
    ((getRecentReceipts false 5 (appendAll [rA, rB, rC] ⟨none, none⟩)).2.1 =
      ([rA, rB, rC].map receiptJson).drop ([rA, rB, rC].length - (5 : Int).toNat) ∧
     (getRecentReceipts false 5 (appendAll [rA, rB, rC] ⟨none, none⟩)).2.1.length =
      min (5 : Int).toNat [rA, rB, rC].length) :=
  ⟨c3_getRecentReceipts_tail_semantics 2 (by decide) [rA, rB, rC],
   c3_getRecentReceipts_tail_semantics 5 (by decide) [rA, rB, rC]⟩

/-- C4: every read operation returns an empty sequence and propagates no
fault, both when its file does not exist (any fault flag) and when the
read itself faults on an existing file (also emitting a diagnostic).
Totality of the operations models "never propagates a fault". -/
theorem c4_read_faults_yield_empty (s : FsState) (b : Bool) (c : Int) :
    (s.receipts = none →
      (readReceipts b s).2.1 = [] ∧ (readReceipts b s).2.2 = [] ∧
      (getRecentReceipts b c s).2.1 = [] ∧ (getRecentReceipts b c s).2.2 = []) ∧
    (s.errors = none →
      (readErrors b s).2.1 = [] ∧ (readErrors b s).2.2 = []) ∧
    (s.receipts ≠ none →
      (readReceipts true s).2.1 = [] ∧
      (readReceipts true s).2.2 = [Diag.receiptReadFail] ∧
      (getRecentReceipts true c s).2.1 = [] ∧
      (getRecentReceipts true c s).2.2 = [Diag.recentReadFail]) ∧
    (s.errors ≠ none →
      (readErrors true s).2.1 = [] ∧
      (readErrors true s).2.2 = [Diag.errorReadFail]) := by
  refine ⟨?_, ?_, ?_, ?_⟩ <;> intro h
  · simp [readReceipts, getRecentReceipts, h]
  · simp [readErrors, h]
  · cases hc : s.receipts with
    | none => exact absurd hc h
    | some content => simp [readReceipts, getRecentReceipts, hc]
  · cases hc : s.errors with
    | none => exact absurd hc h
    | some content => simp [readErrors, hc]

theorem c4_read_faults_yield_empty_witness :
    ((readReceipts true ⟨some ['x'], some ['y']⟩).2.1 = [] ∧
     (readReceipts true ⟨some ['x'], some ['y']⟩).2.2 = [Diag.receiptReadFail] ∧
     (getRecentReceipts true 3 ⟨some ['x'], some ['y']⟩).2.1 = [] ∧
     (getRecentReceipts true 3 ⟨some ['x'], some ['y']⟩).2.2 =
       [Diag.recentReadFail]) ∧
    ((readErrors true ⟨some ['x'], some ['y']⟩).2.1 = [] ∧
     (readErrors true ⟨some ['x'], some ['y']⟩).2.2 = [Diag.errorReadFail]) ∧
    ((readReceipts false ⟨none, none⟩).2.1 = [] ∧
     (readReceipts false ⟨none, none⟩).2.2 = [] ∧
     (getRecentReceipts false 3 ⟨none, none⟩).2.1 = [] ∧
     (getRecentReceipts false 3 ⟨none, none⟩).2.2 = []) :=
  ⟨(c4_read_faults_yield_empty ⟨some ['x'], some ['y']⟩ true 3).2.2.1 (by simp),
   (c4_read_faults_yield_empty ⟨some ['x'], some ['y']⟩ true 3).2.2.2 (by simp),
   (c4_read_faults_yield_empty ⟨none, none⟩ false 3).1 rfl⟩

/-- C5: on files whose raw lines are framing-safe, each full-scan read
operation (`readReceipts` and `readErrors` alike) returns exactly the
parseable lines' values in file order, emits one diagnostic naming each
unparseable raw line, and the two account for every line. -/
theorem c5_parse_faults_isolated (ls els : List Chars) (e rc : Option Chars)
    (h : ∀ l ∈ ls, lineSafe l = true) (h2 : ∀ l ∈ els, lineSafe l = true) :
    (readReceipts false ⟨some (buildC ls), e⟩).2.1 = ls.filterMap Json.parse ∧
    (readReceipts false ⟨some (buildC ls), e⟩).2.2 =
      ls.filterMap (fun l => if (Json.parse l).isSome then none
        else some (Diag.receiptParseFail l)) ∧
    (readReceipts false ⟨some (buildC ls), e⟩).2.1.length +
      (readReceipts false ⟨some (buildC ls), e⟩).2.2.length = ls.length ∧
    (readErrors false ⟨rc, some (buildC els)⟩).2.1 = els.filterMap Json.parse ∧
    (readErrors false ⟨rc, some (buildC els)⟩).2.2 =
      els.filterMap (fun l => if (Json.parse l).isSome then none
        else some (Diag.errorParseFail l)) ∧
    (readErrors false ⟨rc, some (buildC els)⟩).2.1.length +
      (readErrors false ⟨rc, some (buildC els)⟩).2.2.length = els.length := by
  have hrcp : (readReceipts false ⟨some (buildC ls), e⟩).2.1 =
      ls.filterMap Json.parse ∧
      (readReceipts false ⟨some (buildC ls), e⟩).2.2 =
        ls.filterMap (fun l => if (Json.parse l).isSome then none
          else some (Diag.receiptParseFail l)) ∧
      (readReceipts false ⟨some (buildC ls), e⟩).2.1.length +
        (readReceipts false ⟨some (buildC ls), e⟩).2.2.length = ls.length := by
    have hs : (⟨some (buildC ls), e⟩ : FsState).receipts = some (buildC ls) := rfl
    rw [readReceipts_some _ _ hs]
    rw [show ((⟨some (buildC ls), e⟩ : FsState), parseLinesOut (fileLines (buildC ls)),
        parseDiags Diag.receiptParseFail (fileLines (buildC ls))).2.1 =
      parseLinesOut (fileLines (buildC ls)) from rfl]
    rw [show ((⟨some (buildC ls), e⟩ : FsState), parseLinesOut (fileLines (buildC ls)),
        parseDiags Diag.receiptParseFail (fileLines (buildC ls))).2.2 =
      parseDiags Diag.receiptParseFail (fileLines (buildC ls)) from rfl]
    rw [fileLines_buildC ls h, parseLinesOut_eq_filterMap]
    refine ⟨rfl, rfl, ?_⟩
    have := filterMap_isSome_split (fun l => Json.parse l) Diag.receiptParseFail ls
    rw [show parseDiags Diag.receiptParseFail ls =
      ls.filterMap (fun l => if (Json.parse l).isSome then none
        else some (Diag.receiptParseFail l)) from rfl]
    exact this
  have herr : (readErrors false ⟨rc, some (buildC els)⟩).2.1 =
      els.filterMap Json.parse ∧
      (readErrors false ⟨rc, some (buildC els)⟩).2.2 =
        els.filterMap (fun l => if (Json.parse l).isSome then none
          else some (Diag.errorParseFail l)) ∧
      (readErrors false ⟨rc, some (buildC els)⟩).2.1.length +
        (readErrors false ⟨rc, some (buildC els)⟩).2.2.length = els.length := by
    have hs : (⟨rc, some (buildC els)⟩ : FsState).errors = some (buildC els) := rfl
    rw [readErrors_some _ _ hs]
    rw [show ((⟨rc, some (buildC els)⟩ : FsState),
        parseLinesOut (fileLines (buildC els)),
        parseDiags Diag.errorParseFail (fileLines (buildC els))).2.1 =
      parseLinesOut (fileLines (buildC els)) from rfl]
    rw [show ((⟨rc, some (buildC els)⟩ : FsState),
        parseLinesOut (fileLines (buildC els)),
        parseDiags Diag.errorParseFail (fileLines (buildC els))).2.2 =
      parseDiags Diag.errorParseFail (fileLines (buildC els)) from rfl]
    rw [fileLines_buildC els h2, parseLinesOut_eq_filterMap]
    refine ⟨rfl, rfl, ?_⟩
    have := filterMap_isSome_split (fun l => Json.parse l) Diag.errorParseFail els
    rw [show parseDiags Diag.errorParseFail els =
      els.filterMap (fun l => if (Json.parse l).isSome then none
        else some (Diag.errorParseFail l)) from rfl]
    exact this
  exact ⟨hrcp.1, hrcp.2.1, hrcp.2.2, herr.1, herr.2.1, herr.2.2⟩

/-- The receipts file of the C5 witness: valid line, corrupt line,
valid line. -/
def c5LinesR : List Chars := [encVal (receiptJson rA), oops, encVal (receiptJson rB)]

/-- The errors file of the C5 witness: valid line, corrupt line,
valid line. -/
def c5LinesE : List Chars := [encVal (errorJson eA), oops, encVal (errorJson eB)]

theorem c5_parse_faults_isolated_witness :
    ((readReceipts false ⟨some (buildC c5LinesR), none⟩).2.1 =
       c5LinesR.filterMap Json.parse ∧
     (readReceipts false ⟨some (buildC c5LinesR), none⟩).2.2 =
       c5LinesR.filterMap (fun l => if (Json.parse l).isSome then none
         else some (Diag.receiptParseFail l)) ∧
     (readReceipts false ⟨some (buildC c5LinesR), none⟩).2.1.length +
       (readReceipts false ⟨some (buildC c5LinesR), none⟩).2.2.length = 3 ∧
     (readErrors false ⟨none, some (buildC c5LinesE)⟩).2.1 =
       c5LinesE.filterMap Json.parse ∧
     (readErrors false ⟨none, some (buildC c5LinesE)⟩).2.2 =
       c5LinesE.filterMap (fun l => if (Json.parse l).isSome then none
         else some (Diag.errorParseFail l)) ∧
     (readErrors false ⟨none, some (buildC c5LinesE)⟩).2.1.length +
       (readErrors false ⟨none, some (buildC c5LinesE)⟩).2.2.length = 3) ∧
    c5LinesR.filterMap Json.parse = [receiptJson rA, receiptJson rB] ∧
    c5LinesR.filterMap (fun l => if (Json.parse l).isSome then none
      else some (Diag.receiptParseFail l)) = [Diag.receiptParseFail oops] ∧
    c5LinesE.filterMap Json.parse = [errorJson eA, errorJson eB] ∧
    c5LinesE.filterMap (fun l => if (Json.parse l).isSome then none
      else some (Diag.errorParseFail l)) = [Diag.errorParseFail oops] :=
  ⟨c5_parse_faults_isolated c5LinesR c5LinesE none none (by decide) (by decide),
   rfl, rfl, rfl, rfl⟩

/-- C6: on a write fault, `logReceipt`/`logError` leave both files
untouched and emit exactly one diagnostic to the diagnostic channel;
on success they emit none.  Both branches return normally (the
operations are total functions), so the caller sees the same void
return either way. -/
theorem c6_append_faults_swallowed (r : Receipt) (e : ErrorLog) (s : FsState) :
    logReceipt true r s = (s, [Diag.receiptWriteFail]) ∧
    logError true e s = (s, [Diag.errorWriteFail]) ∧
    (logReceipt false r s).2 = [] ∧
    (logError false e s).2 = [] :=
  ⟨rfl, rfl, rfl, rfl⟩

/-- C7: for every interleaving of append calls, each channel's reads see
only that channel's appends: filtering the interleaving down to the
receipt (resp. error) actions leaves every read result and diagnostic
unchanged. -/
theorem c7_channel_isolation (acts : List Act) (s : FsState) (b : Bool) (c : Int) :
    (readReceipts b (exec acts s)).2 =
      (readReceipts b (exec (acts.filter isRcpt) s)).2 ∧
    (getRecentReceipts b c (exec acts s)).2 =
      (getRecentReceipts b c (exec (acts.filter isRcpt) s)).2 ∧
    (readErrors b (exec acts s)).2 =
      (readErrors b (exec (acts.filter (fun a => !isRcpt a)) s)).2 := by
  have h1 := exec_receipts_eq acts s s rfl
  have h2 := exec_errors_eq acts s s rfl
  exact ⟨readReceipts_congr b _ _ h1, getRecentReceipts_congr b c _ _ h1,
    readErrors_congr b _ _ h2⟩

/-- C8: appends only extend their own file (the old bytes are a prefix of
the new ones) and never touch the other file; reads return the state
unchanged. -/
theorem c8_append_only_and_reads_pure (b : Bool) (r : Receipt) (e : ErrorLog)
    (s : FsState) (c : Int) :
    (s.receipts.getD []) <+: (((logReceipt b r s).1).receipts.getD []) ∧
    ((logReceipt b r s).1).errors = s.errors ∧
    (s.errors.getD []) <+: (((logError b e s).1).errors.getD []) ∧
    ((logError b e s).1).receipts = s.receipts ∧
    (readReceipts b s).1 = s ∧ (getRecentReceipts b c s).1 = s ∧
    (readErrors b s).1 = s := by
  refine ⟨?_, ?_, ?_, ?_, ?_, ?_, ?_⟩
  · cases b <;> simp [logReceipt]
  · cases b <;> rfl
  · cases b <;> simp [logError]
  · cases b <;> rfl
  · cases hr : s.receipts <;> cases b <;> simp [readReceipts, hr]
  · cases hr : s.receipts <;> cases b <;> simp [getRecentReceipts, hr]
  · cases hr : s.errors <;> cases b <;> simp [readErrors, hr]

/-- C9: outside the spec's precondition, a negative `count` is passed to
`lines.slice(-count)` as a positive offset, so the read drops the
`min(|count|, n)` oldest records and returns the rest — it neither
rejects the argument nor returns an empty sequence. -/
theorem c9_negative_count_drops_oldest (m : Int) (hm : m < 0) (rs : List Receipt) :
    (getRecentReceipts false m (appendAll rs ⟨none, none⟩)).2.1 =
      (rs.map receiptJson).drop (min (-m).toNat rs.length) := by
  cases rs with
  | nil =>
    show (getRecentReceipts false m ⟨none, none⟩).2.1 = _
    simp [getRecentReceipts]
  | cons r rs' =>
    have hrec := appendAll_receipts (r :: rs') ⟨none, none⟩ (by simp)
    rw [show (FsState.mk none none).receipts.getD [] = [] from rfl,
      List.nil_append] at hrec
    have hlen : (mkLines (r :: rs')).length = (r :: rs').length := by simp [mkLines]
    rw [getRecentReceipts_some _ m _ hrec]
    show parseLinesOut (jsSlice (-m) (fileLines (buildC (mkLines (r :: rs'))))) = _
    rw [fileLines_mkLines, jsSlice_nonneg (-m) (by omega), hlen]
    rw [show (mkLines (r :: rs')).drop (min (-m).toNat (r :: rs').length) =
        mkLines ((r :: rs').drop (min (-m).toNat (r :: rs').length)) from by
      simp [mkLines, List.map_drop]]
    rw [parseLinesOut_mkLines]
    simp [List.map_drop]

theorem c9_negative_count_drops_oldest_witness :
    (getRecentReceipts false (-2) (appendAll [rA, rB, rC] ⟨none, none⟩)).2.1 =
      ([rA, rB, rC].map receiptJson).drop (min (-(-2 : Int)).toNat
        [rA, rB, rC].length) ∧
    ([rA, rB, rC].map receiptJson).drop (min (-(-2 : Int)).toNat
        [rA, rB, rC].length) = [receiptJson rC] :=
  ⟨c9_negative_count_drops_oldest (-2) (by decide) [rA, rB, rC], rfl⟩

/-- C10: `getRecentReceipts` selects its window over raw lines before
parsing: the result is exactly the parseable lines among the last
`count` raw lines; when the window contains `m > 0` unparseable lines
and at least one earlier valid record exists, fewer than
`min(count, total valid)` records are returned — the window is never
widened to compensate. -/
theorem c10_tail_window_before_parsing (ls : List Chars)
    (h : ∀ l ∈ ls, lineSafe l = true) (c : Int) (hc : 1 ≤ c)
    (hcn : c.toNat ≤ ls.length) :
    (getRecentReceipts false c ⟨some (buildC ls), none⟩).2.1 =
      (ls.drop (ls.length - c.toNat)).filterMap Json.parse ∧
    (0 < ((ls.drop (ls.length - c.toNat)).filter
        (fun l => (Json.parse l).isNone)).length →
     0 < ((ls.take (ls.length - c.toNat)).filterMap Json.parse).length →
     ((getRecentReceipts false c ⟨some (buildC ls), none⟩).2.1).length <
       min c.toNat (ls.filterMap Json.parse).length) := by
  have hs : (⟨some (buildC ls), none⟩ : FsState).receipts = some (buildC ls) := rfl
  have hout : (getRecentReceipts false c ⟨some (buildC ls), none⟩).2.1 =
      (ls.drop (ls.length - c.toNat)).filterMap Json.parse := by
    rw [getRecentReceipts_some _ c _ hs]
    show parseLinesOut (jsSlice (-c) (fileLines (buildC ls))) = _
    rw [fileLines_buildC ls h, jsSlice_neg c hc, parseLinesOut_eq_filterMap]
  refine ⟨hout, ?_⟩
  intro hm hearlier
  rw [hout]
  have hwlen : (ls.drop (ls.length - c.toNat)).length = c.toNat := by
    simp
    omega
  have hsplit : ((ls.drop (ls.length - c.toNat)).filterMap Json.parse).length +
      ((ls.drop (ls.length - c.toNat)).filter
        (fun l => (Json.parse l).isNone)).length =
      (ls.drop (ls.length - c.toNat)).length :=
    filterMap_isNone_split _ _
  have htotal : (ls.filterMap Json.parse).length =
      ((ls.take (ls.length - c.toNat)).filterMap Json.parse).length +
      ((ls.drop (ls.length - c.toNat)).filterMap Json.parse).length := by
    conv_lhs => rw [← List.take_append_drop (ls.length - c.toNat) ls]
    rw [List.filterMap_append, List.length_append]
  omega

theorem c10_tail_window_before_parsing_witness :
    ((getRecentReceipts false 2 ⟨some (buildC [encVal (receiptJson rA),
        encVal (receiptJson rB), oops, encVal (receiptJson rC)]), none⟩).2.1 =
      ([encVal (receiptJson rA), encVal (receiptJson rB), oops,
        encVal (receiptJson rC)].drop
          ([encVal (receiptJson rA), encVal (receiptJson rB), oops,
            encVal (receiptJson rC)].length - (2 : Int).toNat)).filterMap
        Json.parse) ∧
    ((getRecentReceipts false 2 ⟨some (buildC [encVal (receiptJson rA),
        encVal (receiptJson rB), oops, encVal (receiptJson rC)]), none⟩).2.1).length <
      min (2 : Int).toNat
        ([encVal (receiptJson rA), encVal (receiptJson rB), oops,
          encVal (receiptJson rC)].filterMap Json.parse).length :=
  ⟨(c10_tail_window_before_parsing [encVal (receiptJson rA), encVal (receiptJson rB),
      oops, encVal (receiptJson rC)] (by decide) 2 (by decide) (by decide)).1,
   (c10_tail_window_before_parsing [encVal (receiptJson rA), encVal (receiptJson rB),
      oops, encVal (receiptJson rC)] (by decide) 2 (by decide) (by decide)).2
     (by decide) (by decide)⟩
